import Mathlib

/-!
Verification of `src/main.rs`: an enumeration of the free idempotent rig on
two generators.  Elements are seven-slot coefficient vectors (`Rig`), packed
into indices `0 .. NUM_RIGS`; a hand-rolled union-find (`unionIdx`) is seeded
with `x ~ x*x` and saturated to a congruence; the final report groups the
universe into equivalence classes.

The union-find pointer array is embedded as a function `Nat → Nat` (slots at
or above `NUM_RIGS` are kept at their own index, mirroring the fixed-length
vector).  The unbounded `while` loops of the source walk strictly decreasing
pointer chains, so fuel `k + 1` suffices to dereference slot `k`; all fuelled
definitions are proved stable under the chain invariant `Desc`.
-/

/-- `NUM_RIGS` from the source: the universe size `4^7`. -/
def NUM_RIGS : Nat := 4 * 4 * 4 * 4 * 4 * 4 * 4

/-- The seven-slot coefficient vector (struct `Rig` in the source). -/
structure Rig where
  i : Nat
  a : Nat
  b : Nat
  ab : Nat
  ba : Nat
  aba : Nat
  bab : Nat
deriving DecidableEq

/-- `Rig::from`: unpack an index into the seven radix-4 digits. -/
def Rig.fromNat (n : Nat) : Rig where
  i := n &&& 3
  a := (n >>> 2) &&& 3
  b := (n >>> 4) &&& 3
  ab := (n >>> 6) &&& 3
  ba := (n >>> 8) &&& 3
  aba := (n >>> 10) &&& 3
  bab := (n >>> 12) &&& 3

/-- `Rig::to_int`: pack the seven digits back into an index. -/
def Rig.to_int (r : Rig) : Nat :=
  r.i + (r.a <<< 2) + (r.b <<< 4) + (r.ab <<< 6) + (r.ba <<< 8)
    + (r.aba <<< 10) + (r.bab <<< 12)

/-- The per-slot fold `n` nested inside `Rig::normalise`. -/
def Rig.n (x : Nat) : Nat := if x ≥ 4 then x % 2 + 2 else x

/-- `Rig::normalise`: apply the fold `n` to every slot. -/
def Rig.normalise (r : Rig) : Rig where
  i := Rig.n r.i
  a := Rig.n r.a
  b := Rig.n r.b
  ab := Rig.n r.ab
  ba := Rig.n r.ba
  aba := Rig.n r.aba
  bab := Rig.n r.bab

/-- `Rig::add`: component-wise sum, then normalise. -/
def Rig.add (x y : Rig) : Rig :=
  Rig.normalise
    { i := x.i + y.i
      a := x.a + y.a
      b := x.b + y.b
      ab := x.ab + y.ab
      ba := x.ba + y.ba
      aba := x.aba + y.aba
      bab := x.bab + y.bab }

/-- `Rig::mul`: the hand-derived bilinear table, then normalise. -/
def Rig.mul (x y : Rig) : Rig :=
  Rig.normalise
    { i := x.i * y.i
      a := x.i * y.a + x.a * y.i + x.a * y.a
      b := x.i * y.b + x.b * y.i + x.b * y.b
      ab := x.i * y.ab + x.ab * y.i + x.ab * y.ab + x.a * y.b + x.a * y.ab
        + x.a * y.bab + x.ab * y.b + x.ab * y.bab + x.aba * y.b
        + x.aba * y.ab + x.aba * y.bab
      ba := x.i * y.ba + x.ba * y.i + x.ba * y.ba + x.b * y.a + x.b * y.ba
        + x.b * y.aba + x.ba * y.a + x.ba * y.aba + x.bab * y.a
        + x.bab * y.ba + x.bab * y.aba
      aba := x.i * y.aba + x.aba * y.i + x.aba * y.aba + x.a * y.ba
        + x.a * y.aba + x.ab * y.a + x.ab * y.ba + x.ab * y.aba
        + x.aba * y.a + x.aba * y.ba
      bab := x.i * y.bab + x.bab * y.i + x.bab * y.bab + x.b * y.ab
        + x.b * y.bab + x.ba * y.b + x.ba * y.ab + x.ba * y.bab
        + x.bab * y.b + x.bab * y.ab }

/-- The seven-slot bilinear multiplication table exactly as the specification
lists it (identity, gen-a, gen-b, word-ab, its a/b mirror word-ba, word-aba,
its a/b mirror word-bab), with the per-slot normalization applied to the
result.  Written from the specification text, to be compared with
`Rig.mul` from the source. -/
def specMultiply (x y : Rig) : Rig :=
  Rig.normalise
    { i := x.i * y.i
      a := x.i * y.a + x.a * y.i + x.a * y.a
      b := x.i * y.b + x.b * y.i + x.b * y.b
      ab := x.i * y.ab + x.ab * y.i + x.ab * y.ab + x.a * y.b + x.a * y.ab
        + x.a * y.bab + x.ab * y.b + x.ab * y.bab + x.aba * y.b
        + x.aba * y.ab + x.aba * y.bab
      ba := x.i * y.ba + x.ba * y.i + x.ba * y.ba + x.b * y.a + x.b * y.ba
        + x.b * y.aba + x.ba * y.a + x.ba * y.aba + x.bab * y.a
        + x.bab * y.ba + x.bab * y.aba
      aba := x.i * y.aba + x.aba * y.i + x.aba * y.aba + x.a * y.ba
        + x.a * y.aba + x.ab * y.a + x.ab * y.ba + x.ab * y.aba
        + x.aba * y.a + x.aba * y.ba
      bab := x.i * y.bab + x.bab * y.i + x.bab * y.bab + x.b * y.ab
        + x.b * y.bab + x.ba * y.b + x.ba * y.ab + x.ba * y.bab
        + x.bab * y.b + x.bab * y.ab }

/-- Membership in the universe: all seven slots lie in `[0, 3]`. -/
def InUniverse (r : Rig) : Prop :=
  r.i ≤ 3 ∧ r.a ≤ 3 ∧ r.b ≤ 3 ∧ r.ab ≤ 3 ∧ r.ba ≤ 3 ∧ r.aba ≤ 3 ∧ r.bab ≤ 3

instance (r : Rig) : Decidable (InUniverse r) := by
  unfold InUniverse; infer_instance

theorem Rig.n_le_three (x : Nat) : Rig.n x ≤ 3 := by
  unfold Rig.n; split <;> omega

theorem Rig.normalise_inUniverse (r : Rig) : InUniverse (Rig.normalise r) := by
  refine ⟨?_, ?_, ?_, ?_, ?_, ?_, ?_⟩ <;> exact Rig.n_le_three _

theorem Rig.add_inUniverse (x y : Rig) : InUniverse (Rig.add x y) :=
  Rig.normalise_inUniverse _

theorem Rig.mul_inUniverse (x y : Rig) : InUniverse (Rig.mul x y) :=
  Rig.normalise_inUniverse _

theorem Rig.and_three (x : Nat) : x &&& 3 = x % 4 := by
  have h := Nat.and_pow_two_sub_one_eq_mod x 2
  norm_num at h
  exact h

theorem Rig.fromNat_eq (n : Nat) :
    Rig.fromNat n =
      { i := n % 4, a := n / 4 % 4, b := n / 16 % 4, ab := n / 64 % 4,
        ba := n / 256 % 4, aba := n / 1024 % 4, bab := n / 4096 % 4 } := by
  unfold Rig.fromNat
  simp only [Nat.shiftRight_eq_div_pow, Rig.and_three]

theorem Rig.to_int_eq (r : Rig) :
    r.to_int = r.i + r.a * 4 + r.b * 16 + r.ab * 64 + r.ba * 256
      + r.aba * 1024 + r.bab * 4096 := by
  unfold Rig.to_int
  simp only [Nat.shiftLeft_eq]

theorem Rig.to_int_from (n : Nat) (h : n < NUM_RIGS) :
    (Rig.fromNat n).to_int = n := by
  rw [Rig.fromNat_eq]
  rw [Rig.to_int_eq]
  simp only []
  unfold NUM_RIGS at h
  omega

theorem Rig.from_to_int (r : Rig) (h : InUniverse r) :
    Rig.fromNat r.to_int = r := by
  obtain ⟨ri, ra, rb, rab, rba, raba, rbab⟩ := r
  obtain ⟨h1, h2, h3, h4, h5, h6, h7⟩ := h
  rw [Rig.to_int_eq, Rig.fromNat_eq]
  simp only [Rig.mk.injEq] at h1 h2 h3 h4 h5 h6 h7 ⊢
  refine ⟨?_, ?_, ?_, ?_, ?_, ?_, ?_⟩ <;> omega

theorem Rig.to_int_lt (r : Rig) (h : InUniverse r) : r.to_int < NUM_RIGS := by
  obtain ⟨ri, ra, rb, rab, rba, raba, rbab⟩ := r
  obtain ⟨h1, h2, h3, h4, h5, h6, h7⟩ := h
  rw [Rig.to_int_eq]
  unfold NUM_RIGS
  simp only [] at h1 h2 h3 h4 h5 h6 h7 ⊢
  omega

theorem Rig.fromNat_inUniverse (n : Nat) : InUniverse (Rig.fromNat n) := by
  rw [Rig.fromNat_eq]
  refine ⟨?_, ?_, ?_, ?_, ?_, ?_, ?_⟩ <;> simp <;> omega

theorem Rig.fromNat_to_int_lt (n : Nat) : (Rig.fromNat n).to_int < NUM_RIGS :=
  Rig.to_int_lt _ (Rig.fromNat_inUniverse n)

theorem Rig.n_add_left (x c : Nat) : Rig.n (Rig.n x + c) = Rig.n (x + c) := by
  unfold Rig.n; split_ifs <;> omega

theorem Rig.n_add_right (x c : Nat) : Rig.n (c + Rig.n x) = Rig.n (c + x) := by
  unfold Rig.n; split_ifs <;> omega

theorem Rig.add_comm_all (x y : Rig) : Rig.add x y = Rig.add y x := by
  unfold Rig.add Rig.normalise
  simp only [Rig.mk.injEq]
  refine ⟨?_, ?_, ?_, ?_, ?_, ?_, ?_⟩ <;> rw [Nat.add_comm]

theorem Rig.add_assoc_all (x y z : Rig) :
    Rig.add (Rig.add x y) z = Rig.add x (Rig.add y z) := by
  unfold Rig.add Rig.normalise
  simp only [Rig.mk.injEq]
  refine ⟨?_, ?_, ?_, ?_, ?_, ?_, ?_⟩ <;>
    rw [Rig.n_add_left, Rig.n_add_right, Nat.add_assoc]

/-- C3: multiply computes exactly the literal seven-slot bilinear table of the
spec (identity, gen-a, gen-b, the 11-term word-ab sum, its a/b mirror word-ba,
the 10-term word-aba sum, its a/b mirror word-bab), with the per-slot
normalization applied to the result. -/
theorem C3_mul_matches_spec_table : ∀ x y : Rig, Rig.mul x y = specMultiply x y :=
  fun _ _ => rfl

/-- C4: encode and decode are mutual inverses over the universe:
`to_int (from i) = i` for `i < 16384` and `from (to_int v) = v` for any
seven-slot vector with slots in `[0, 3]`. -/
theorem C4_encode_decode (n : Nat) (v : Rig) (hn : n < NUM_RIGS)
    (hv : InUniverse v) :
    (Rig.fromNat n).to_int = n ∧ Rig.fromNat v.to_int = v :=
  ⟨Rig.to_int_from n hn, Rig.from_to_int v hv⟩

theorem C4_witness :
    5 < NUM_RIGS ∧ InUniverse (Rig.mk 1 2 3 0 1 2 3) ∧
      ((Rig.fromNat 5).to_int = 5 ∧
        Rig.fromNat (Rig.mk 1 2 3 0 1 2 3).to_int = Rig.mk 1 2 3 0 1 2 3) :=
  ⟨by decide, by decide, C4_encode_decode 5 (Rig.mk 1 2 3 0 1 2 3) (by decide) (by decide)⟩

/-- C8: add is commutative and associative on the universe (component-wise
slot sum followed by normalization). -/
theorem C8_add_comm_assoc (x y z : Rig) (hx : InUniverse x) (hy : InUniverse y)
    (hz : InUniverse z) :
    Rig.add x y = Rig.add y x ∧
      Rig.add (Rig.add x y) z = Rig.add x (Rig.add y z) :=
  ⟨Rig.add_comm_all x y, Rig.add_assoc_all x y z⟩

theorem C8_witness :
    InUniverse (Rig.mk 3 3 0 1 2 0 1) ∧ InUniverse (Rig.mk 2 3 1 0 0 2 3) ∧
      InUniverse (Rig.mk 1 1 1 3 3 3 0) ∧
      (Rig.add (Rig.mk 3 3 0 1 2 0 1) (Rig.mk 2 3 1 0 0 2 3)
          = Rig.add (Rig.mk 2 3 1 0 0 2 3) (Rig.mk 3 3 0 1 2 0 1) ∧
        Rig.add (Rig.add (Rig.mk 3 3 0 1 2 0 1) (Rig.mk 2 3 1 0 0 2 3))
            (Rig.mk 1 1 1 3 3 3 0)
          = Rig.add (Rig.mk 3 3 0 1 2 0 1)
              (Rig.add (Rig.mk 2 3 1 0 0 2 3) (Rig.mk 1 1 1 3 3 3 0))) :=
  ⟨by decide, by decide, by decide,
    C8_add_comm_assoc _ _ _ (by decide) (by decide) (by decide)⟩

/-! ## The union-find structure (`RigUnion` in the source) -/

/-- Chain invariant of the pointer array: every slot holds its own index or a
smaller one (the source asserts this while dereferencing). -/
def Desc (p : Nat → Nat) : Prop := ∀ k, p k ≤ k

/-- Slots at or above the array length stay at their own index (the embedding
of the fixed length `NUM_RIGS` of the backing vector). -/
def HighId (p : Nat → Nat) : Prop := ∀ k, NUM_RIGS ≤ k → p k = k

/-- Full state invariant of `RigUnion`. -/
def InvUF (p : Nat → Nat) : Prop := Desc p ∧ HighId p

/-- `RigUnion::new`: every pointer starts at its own index. -/
def initUF : Nat → Nat := fun k => k

/-- The pointer-chasing loop of `union` (`while ptrs[tgt] != tgt`), with fuel;
fuel `t + 1` is enough for slot `t` because chains strictly decrease. -/
def derefAux : Nat → (Nat → Nat) → Nat → Nat
  | 0, _, t => t
  | fuel + 1, p, t => if p t = t then t else derefAux fuel p (p t)

/-- Resolve an index to its root (the chain fixed point). -/
def find (p : Nat → Nat) (t : Nat) : Nat := derefAux (t + 1) p t

/-- Write one slot of the pointer array. -/
def updateUF (p : Nat → Nat) (k v : Nat) : Nat → Nat :=
  fun m => if m = k then v else p m

/-- The repointing loop of `union` (`while ptrs[idx] != idx`, then a final
write): every node on `idx`'s chain is redirected to `tgt`. -/
def repointAux : Nat → (Nat → Nat) → Nat → Nat → (Nat → Nat)
  | 0, p, idx, tgt => updateUF p idx tgt
  | fuel + 1, p, idx, tgt =>
      if p idx = idx then updateUF p idx tgt
      else repointAux fuel (updateUF p idx tgt) (p idx) tgt

/-- `RigUnion::union` on raw indices: dereference both chains, pick the
smaller root as target, then repoint both chains to it. -/
def unionIdx (p : Nat → Nat) (idx1 idx2 : Nat) : Nat → Nat :=
  let tgt1 := find p idx1
  let tgt2 := find p idx2
  let tgt := min tgt1 tgt2
  let p1 := repointAux (idx1 + 1) p idx1 tgt
  repointAux (idx2 + 1) p1 idx2 tgt

/-- `RigUnion::union` as in the source: arguments are rig values, converted
to indices on entry. -/
def RigUnion.union (p : Nat → Nat) (r1 r2 : Rig) : Nat → Nat :=
  unionIdx p r1.to_int r2.to_int

/-- Does the pointer chain starting at `m` pass through `idx`?  (Fuelled, like
`derefAux`.) -/
def hitsAux : Nat → (Nat → Nat) → Nat → Nat → Bool
  | 0, _, m, idx => m == idx
  | fuel + 1, p, m, idx =>
      if m = idx then true else if p m = m then false else hitsAux fuel p (p m) idx

/-- Chain membership: `idx` lies on the chain from `m` (inclusive). -/
def hits (p : Nat → Nat) (m idx : Nat) : Bool := hitsAux (m + 1) p m idx

theorem derefAux_congr_fuel (p : Nat → Nat) (hp : Desc p) :
    ∀ t f1 f2, t < f1 → t < f2 → derefAux f1 p t = derefAux f2 p t := by
  intro t
  induction t using Nat.strong_induction_on with
  | _ t ih =>
    intro f1 f2 h1 h2
    match f1, f2 with
    | fa + 1, fb + 1 =>
      show (if p t = t then t else derefAux fa p (p t))
        = (if p t = t then t else derefAux fb p (p t))
      by_cases h : p t = t
      · simp [h]
      · have hlt : p t < t := Nat.lt_of_le_of_ne (hp t) h
        simp only [if_neg h]
        exact ih (p t) hlt fa fb (by omega) (by omega)

theorem derefAux_succ (p : Nat → Nat) (f t : Nat) :
    derefAux (f + 1) p t = if p t = t then t else derefAux f p (p t) := rfl

theorem find_step (p : Nat → Nat) (hp : Desc p) (t : Nat) :
    find p t = if p t = t then t else find p (p t) := by
  by_cases h : p t = t
  · simp [find, derefAux, h]
  · have hlt : p t < t := Nat.lt_of_le_of_ne (hp t) h
    rw [if_neg h]
    show derefAux (t + 1) p t = find p (p t)
    rw [derefAux_succ, if_neg h]
    exact derefAux_congr_fuel p hp (p t) t (p t + 1) hlt (Nat.lt_succ_self _)

theorem find_of_root (p : Nat → Nat) (t : Nat) (h : p t = t) : find p t = t := by
  simp [find, derefAux, h]

theorem find_le (p : Nat → Nat) (hp : Desc p) (t : Nat) : find p t ≤ t := by
  induction t using Nat.strong_induction_on with
  | _ t ih =>
    rw [find_step p hp t]
    by_cases h : p t = t
    · simp [h]
    · have hlt : p t < t := Nat.lt_of_le_of_ne (hp t) h
      rw [if_neg h]
      exact Nat.le_trans (ih (p t) hlt) (hp t)

theorem find_le_apply (p : Nat → Nat) (hp : Desc p) (t : Nat) :
    find p t ≤ p t := by
  rw [find_step p hp t]
  by_cases h : p t = t
  · simp [h]
  · rw [if_neg h]
    exact find_le p hp (p t)

theorem find_root_fix (p : Nat → Nat) (hp : Desc p) (t : Nat) :
    p (find p t) = find p t := by
  induction t using Nat.strong_induction_on with
  | _ t ih =>
    rw [find_step p hp t]
    by_cases h : p t = t
    · simpa [h] using h
    · have hlt : p t < t := Nat.lt_of_le_of_ne (hp t) h
      rw [if_neg h]
      exact ih (p t) hlt

theorem find_idem (p : Nat → Nat) (hp : Desc p) (t : Nat) :
    find p (find p t) = find p t :=
  find_of_root p _ (find_root_fix p hp t)

theorem find_apply (p : Nat → Nat) (hp : Desc p) (t : Nat) :
    find p (p t) = find p t := by
  by_cases h : p t = t
  · rw [h]
  · rw [find_step p hp t, if_neg h]

theorem find_high (p : Nat → Nat) (hp : HighId p) (k : Nat)
    (h : NUM_RIGS ≤ k) : find p k = k :=
  find_of_root p k (hp k h)

theorem hitsAux_congr_fuel (p : Nat → Nat) (hp : Desc p) :
    ∀ m idx f1 f2, m < f1 → m < f2 →
      hitsAux f1 p m idx = hitsAux f2 p m idx := by
  intro m
  induction m using Nat.strong_induction_on with
  | _ m ih =>
    intro idx f1 f2 h1 h2
    match f1, f2 with
    | fa + 1, fb + 1 =>
      show (if m = idx then true else if p m = m then false else hitsAux fa p (p m) idx)
        = (if m = idx then true else if p m = m then false else hitsAux fb p (p m) idx)
      by_cases h : m = idx
      · simp [h]
      · by_cases h3 : p m = m
        · simp [h, h3]
        · have hlt : p m < m := Nat.lt_of_le_of_ne (hp m) h3
          simp only [if_neg h, if_neg h3]
          exact ih (p m) hlt idx fa fb (by omega) (by omega)

theorem hits_step (p : Nat → Nat) (hp : Desc p) (m idx : Nat) :
    hits p m idx =
      if m = idx then true else if p m = m then false else hits p (p m) idx := by
  by_cases h : m = idx
  · simp [hits, hitsAux, h]
  · by_cases h3 : p m = m
    · simp [hits, hitsAux, h, h3]
    · have hlt : p m < m := Nat.lt_of_le_of_ne (hp m) h3
      simp only [if_neg h, if_neg h3]
      show hitsAux (m + 1) p m idx = _
      rw [show hitsAux (m + 1) p m idx
        = if m = idx then true else if p m = m then false else hitsAux m p (p m) idx
        from rfl]
      rw [if_neg h, if_neg h3]
      exact hitsAux_congr_fuel p hp (p m) idx m (p m + 1) hlt (Nat.lt_succ_self _)

theorem hits_self (p : Nat → Nat) (m : Nat) : hits p m m = true := by
  simp [hits, hitsAux]

theorem hits_le (p : Nat → Nat) (hp : Desc p) :
    ∀ m idx, hits p m idx = true → idx ≤ m := by
  intro m
  induction m using Nat.strong_induction_on with
  | _ m ih =>
    intro idx h
    rw [hits_step p hp] at h
    by_cases h1 : m = idx
    · omega
    · by_cases h2 : p m = m
      · simp [h1, h2] at h
      · have hlt : p m < m := Nat.lt_of_le_of_ne (hp m) h2
        rw [if_neg h1, if_neg h2] at h
        exact Nat.le_trans (ih (p m) hlt idx h) (Nat.le_of_lt hlt)

theorem hits_find (p : Nat → Nat) (hp : Desc p) :
    ∀ m idx, hits p m idx = true → find p m = find p idx := by
  intro m
  induction m using Nat.strong_induction_on with
  | _ m ih =>
    intro idx h
    rw [hits_step p hp] at h
    by_cases h1 : m = idx
    · rw [h1]
    · by_cases h2 : p m = m
      · simp [h1, h2] at h
      · have hlt : p m < m := Nat.lt_of_le_of_ne (hp m) h2
        rw [if_neg h1, if_neg h2] at h
        rw [← find_apply p hp m]
        exact ih (p m) hlt idx h

theorem find_hits (p : Nat → Nat) (hp : Desc p) :
    ∀ m, hits p m (find p m) = true := by
  intro m
  induction m using Nat.strong_induction_on with
  | _ m ih =>
    by_cases h2 : p m = m
    · rw [find_of_root p m h2]
      exact hits_self p m
    · have hlt : p m < m := Nat.lt_of_le_of_ne (hp m) h2
      rw [hits_step p hp]
      by_cases h1 : m = find p m
      · rw [if_pos h1]
      · rw [if_neg (fun hx => h1 hx), if_neg h2, ← find_apply p hp m]
        exact ih (p m) hlt

theorem desc_update (p : Nat → Nat) (hp : Desc p) (idx tgt : Nat)
    (h : tgt ≤ idx) : Desc (updateUF p idx tgt) := by
  intro k
  unfold updateUF
  by_cases hk : k = idx
  · rw [if_pos hk]; omega
  · rw [if_neg hk]; exact hp k

theorem find_update (p : Nat → Nat) (hp : Desc p) (idx tgt : Nat)
    (h1 : tgt ≤ idx) (h2 : p tgt = tgt) :
    ∀ m, find (updateUF p idx tgt) m
      = if hits p m idx = true then tgt else find p m := by
  have hq : Desc (updateUF p idx tgt) := desc_update p hp idx tgt h1
  intro m
  induction m using Nat.strong_induction_on with
  | _ m ih =>
    by_cases hm : m = idx
    · subst hm
      rw [if_pos (hits_self p m)]
      have hqm : updateUF p m tgt m = tgt := by simp [updateUF]
      by_cases ht : tgt = m
      · rw [find_of_root _ m (by rw [hqm, ht]), ht]
      · rw [find_step _ hq m, hqm, if_neg ht]
        exact find_of_root _ tgt (by simp [updateUF, ht, h2])
    · have hqm : updateUF p idx tgt m = p m := by simp [updateUF, hm]
      by_cases hr : p m = m
      · have hh : hits p m idx = false := by
          rw [hits_step p hp, if_neg hm, if_pos hr]
        rw [find_of_root _ m (by rw [hqm, hr]), hh]
        simp [find_of_root p m hr]
      · have hlt : p m < m := Nat.lt_of_le_of_ne (hp m) hr
        have hstep : find (updateUF p idx tgt) m
            = find (updateUF p idx tgt) (p m) := by
          rw [find_step _ hq m, hqm, if_neg hr]
        have hh : hits p m idx = hits p (p m) idx := by
          rw [hits_step p hp, if_neg hm, if_neg hr]
        rw [hstep, ih (p m) hlt, hh, find_step p hp m, if_neg hr]

theorem repoint_spec :
    ∀ fuel p idx tgt, Desc p → idx < fuel → tgt ≤ find p idx → p tgt = tgt →
      (∀ m, repointAux fuel p idx tgt m = p m ∨
        (repointAux fuel p idx tgt m = tgt ∧ find p m = find p idx)) ∧
      repointAux fuel p idx tgt idx = tgt ∧
      Desc (repointAux fuel p idx tgt) ∧
      (∀ m, idx < m → repointAux fuel p idx tgt m = p m) ∧
      (∀ m, find (repointAux fuel p idx tgt) m =
        if find p m = find p idx then tgt else find p m) := by
  intro fuel
  induction fuel with
  | zero => intro p idx tgt _ h; omega
  | succ f ih =>
    intro p idx tgt hp hfuel htgt hroot
    by_cases hidx : p idx = idx
    · have hq : repointAux (f + 1) p idx tgt = updateUF p idx tgt := by
        show (if p idx = idx then _ else _) = _
        rw [if_pos hidx]
      have hfind_idx : find p idx = idx := find_of_root p idx hidx
      have htgt2 : tgt ≤ idx := hfind_idx ▸ htgt
      have hdesc : Desc (updateUF p idx tgt) := desc_update p hp idx tgt htgt2
      rw [hq]
      refine ⟨?_, ?_, hdesc, ?_, ?_⟩
      · intro m
        by_cases hm : m = idx
        · right
          subst hm
          exact ⟨by simp [updateUF], rfl⟩
        · left
          simp [updateUF, hm]
      · simp [updateUF]
      · intro m hm
        have hne : m ≠ idx := by omega
        simp [updateUF, hne]
      · intro m
        rw [find_update p hp idx tgt htgt2 hroot m, hfind_idx]
        by_cases hh : hits p m idx = true
        · rw [if_pos hh, if_pos ((hits_find p hp m idx hh).trans hfind_idx)]
        · have hne : find p m ≠ idx := by
            intro hx
            exact hh (hx ▸ find_hits p hp m)
          rw [if_neg hh, if_neg hne]
    · have hlt : p idx < idx := Nat.lt_of_le_of_ne (hp idx) hidx
      have hq : repointAux (f + 1) p idx tgt
          = repointAux f (updateUF p idx tgt) (p idx) tgt := by
        show (if p idx = idx then _ else _) = _
        rw [if_neg hidx]
      have hfa : find p idx = find p (p idx) := (find_apply p hp idx).symm
      have hfle : find p idx ≤ p idx := find_le_apply p hp idx
      have htlt : tgt < idx := by omega
      have hdesc1 : Desc (updateUF p idx tgt) := desc_update p hp idx tgt (by omega)
      have hroot1 : updateUF p idx tgt tgt = tgt := by
        have hne : tgt ≠ idx := by omega
        simp [updateUF, hne, hroot]
      have hfu : ∀ x, find (updateUF p idx tgt) x
          = if hits p x idx = true then tgt else find p x :=
        find_update p hp idx tgt (by omega) hroot
      have hhp : hits p (p idx) idx = false := by
        cases hb : hits p (p idx) idx
        · rfl
        · have := hits_le p hp (p idx) idx hb
          omega
      have hfpi : find (updateUF p idx tgt) (p idx) = find p idx := by
        rw [hfu (p idx), hhp]
        simp [hfa.symm]
      obtain ⟨iR2, iR4, iDesc, iR5, iR3⟩ :=
        ih (updateUF p idx tgt) (p idx) tgt hdesc1 (by omega)
          (by rw [hfpi]; exact htgt) hroot1
      rw [hq]
      refine ⟨?_, ?_, iDesc, ?_, ?_⟩
      · intro m
        rcases iR2 m with h | ⟨h, hf⟩
        · by_cases hm : m = idx
          · right
            subst hm
            refine ⟨?_, rfl⟩
            rw [h]
            simp [updateUF]
          · left
            rw [h]
            simp [updateUF, hm]
        · right
          refine ⟨h, ?_⟩
          rw [hfpi] at hf
          rw [hfu m] at hf
          by_cases hh : hits p m idx = true
          · exact hits_find p hp m idx hh
          · rw [if_neg hh] at hf
            exact hf
      · rcases iR2 idx with h | ⟨h, _⟩
        · rw [h]
          simp [updateUF]
        · exact h
      · intro m hm
        rw [iR5 m (by omega)]
        have hne : m ≠ idx := by omega
        simp [updateUF, hne]
      · intro m
        rw [iR3 m, hfpi, hfu m]
        by_cases hh : hits p m idx = true
        · rw [if_pos hh]
          have hfm : find p m = find p idx := hits_find p hp m idx hh
          rw [if_pos hfm]
          by_cases he : tgt = find p idx
          · rw [if_pos he]
          · rw [if_neg he]
        · rw [if_neg hh]

theorem unionIdx_spec (p : Nat → Nat) (i j : Nat) (hp : Desc p) :
    Desc (unionIdx p i j) ∧
    (∀ m, unionIdx p i j m ≤ p m) ∧
    (∀ m, i < m → j < m → unionIdx p i j m = p m) ∧
    unionIdx p i j j = min (find p i) (find p j) ∧
    (∀ m, find (unionIdx p i j) m =
      if find p m = find p i ∨ find p m = find p j
      then min (find p i) (find p j) else find p m) := by
  have hr1 : p (find p i) = find p i := find_root_fix p hp i
  have hr2 : p (find p j) = find p j := find_root_fix p hp j
  have htr : p (min (find p i) (find p j)) = min (find p i) (find p j) := by
    rcases min_choice (find p i) (find p j) with h | h <;> rw [h] <;> assumption
  obtain ⟨aR2, aR4, aDesc, aR5, aR3⟩ :=
    repoint_spec (i + 1) p i (min (find p i) (find p j)) hp (Nat.lt_succ_self i)
      (min_le_left _ _) htr
  have hp1t : repointAux (i + 1) p i (min (find p i) (find p j))
      (min (find p i) (find p j)) = min (find p i) (find p j) := by
    rcases aR2 (min (find p i) (find p j)) with h | ⟨h, _⟩
    · rw [h]
      exact htr
    · exact h
  have hfj : min (find p i) (find p j)
      ≤ find (repointAux (i + 1) p i (min (find p i) (find p j))) j := by
    rw [aR3 j]
    split_ifs <;> omega
  obtain ⟨bR2, bR4, bDesc, bR5, bR3⟩ :=
    repoint_spec (j + 1) (repointAux (i + 1) p i (min (find p i) (find p j))) j
      (min (find p i) (find p j)) aDesc (Nat.lt_succ_self j) hfj hp1t
  have hueq : unionIdx p i j
      = repointAux (j + 1) (repointAux (i + 1) p i (min (find p i) (find p j))) j
          (min (find p i) (find p j)) := rfl
  rw [hueq]
  refine ⟨bDesc, ?_, ?_, ?_, ?_⟩
  · intro m
    rcases bR2 m with h | ⟨h, hf⟩
    · rw [h]
      rcases aR2 m with h2 | ⟨h2, hf2⟩
      · rw [h2]
      · rw [h2]
        have h3 := find_le_apply p hp m
        omega
    · rw [h]
      rw [aR3 m, aR3 j] at hf
      have h3 := find_le_apply p hp m
      split_ifs at hf <;> omega
  · intro m hmi hmj
    rw [bR5 m hmj, aR5 m hmi]
  · exact bR4
  · intro m
    rw [bR3 m, aR3 m, aR3 j]
    split_ifs <;> omega

theorem unionIdx_desc (p : Nat → Nat) (i j : Nat) (hp : Desc p) :
    Desc (unionIdx p i j) := (unionIdx_spec p i j hp).1

theorem unionIdx_le (p : Nat → Nat) (i j : Nat) (hp : Desc p) :
    ∀ m, unionIdx p i j m ≤ p m := (unionIdx_spec p i j hp).2.1

theorem unionIdx_frame (p : Nat → Nat) (i j : Nat) (hp : Desc p) :
    ∀ m, i < m → j < m → unionIdx p i j m = p m := (unionIdx_spec p i j hp).2.2.1

theorem unionIdx_find (p : Nat → Nat) (i j : Nat) (hp : Desc p) :
    ∀ m, find (unionIdx p i j) m =
      if find p m = find p i ∨ find p m = find p j
      then min (find p i) (find p j) else find p m :=
  (unionIdx_spec p i j hp).2.2.2.2

theorem unionIdx_inv (p : Nat → Nat) (i j : Nat) (hp : InvUF p)
    (hi : i < NUM_RIGS) (hj : j < NUM_RIGS) : InvUF (unionIdx p i j) := by
  refine ⟨unionIdx_desc p i j hp.1, fun k hk => ?_⟩
  rw [unionIdx_frame p i j hp.1 k (by omega) (by omega)]
  exact hp.2 k hk

theorem unionIdx_find_min (p : Nat → Nat) (i j : Nat) (hp : Desc p) :
    find (unionIdx p i j) i = min (find p i) (find p j) := by
  rw [unionIdx_find p i j hp i]
  rw [if_pos (Or.inl rfl)]

theorem unionIdx_find_eq (p : Nat → Nat) (i j : Nat) (hp : Desc p) :
    find (unionIdx p i j) i = find (unionIdx p i j) j := by
  rw [unionIdx_find p i j hp i, unionIdx_find p i j hp j,
    if_pos (Or.inl rfl), if_pos (Or.inr rfl)]

theorem unionIdx_noop_partition (p : Nat → Nat) (i j : Nat) (hp : Desc p)
    (h : find p i = find p j) :
    ∀ k, find (unionIdx p i j) k = find p k := by
  intro k
  rw [unionIdx_find p i j hp k]
  split_ifs with hc
  · rcases hc with hc | hc <;> omega
  · rfl

theorem unionIdx_self_eq_imp (p : Nat → Nat) (i j : Nat) (hp : Desc p)
    (h : unionIdx p i j = p) : find p i = find p j := by
  have h1 := unionIdx_find_eq p i j hp
  rw [h] at h1
  exact h1

theorem unionIdx_mono (p : Nat → Nat) (i j a b : Nat) (hp : Desc p)
    (h : find p a = find p b) :
    find (unionIdx p i j) a = find (unionIdx p i j) b := by
  rw [unionIdx_find p i j hp a, unionIdx_find p i j hp b, h]

theorem initUF_inv : InvUF initUF := ⟨fun k => Nat.le_refl k, fun _ _ => rfl⟩

theorem find_initUF (k : Nat) : find initUF k = k := find_of_root initUF k rfl

/-- C5: after a merge on an invariant state, every slot holds its own index or
a strictly smaller one (so the strictly-decreasing assertions in `union` hold),
every chain ends at a root that is the minimum index of its class, the new
root is `min(root1, root2)`, and classes only ever merge (so the root stays
the minimum index ever present in its class). -/
theorem C5_union_invariant (p : Nat → Nat) (i j : Nat) (h : InvUF p)
    (hi : i < NUM_RIGS) (hj : j < NUM_RIGS) :
    (∀ k, unionIdx p i j k = k ∨ unionIdx p i j k < k) ∧
    (∀ k, unionIdx p i j k ≠ k → unionIdx p i j k < k) ∧
    (∀ k, unionIdx p i j (find (unionIdx p i j) k) = find (unionIdx p i j) k) ∧
    (∀ k l, find (unionIdx p i j) k = find (unionIdx p i j) l →
      find (unionIdx p i j) k ≤ l) ∧
    find (unionIdx p i j) i = min (find p i) (find p j) ∧
    (∀ k l, find p k = find p l →
      find (unionIdx p i j) k = find (unionIdx p i j) l) := by
  have hd : Desc (unionIdx p i j) := unionIdx_desc p i j h.1
  refine ⟨?_, ?_, ?_, ?_, unionIdx_find_min p i j h.1, ?_⟩
  · intro k
    have := hd k
    omega
  · intro k hk
    have := hd k
    omega
  · intro k
    exact find_root_fix _ hd k
  · intro k l hkl
    rw [hkl]
    exact find_le _ hd l
  · intro k l
    exact unionIdx_mono p i j k l h.1

theorem C5_witness :
    InvUF initUF ∧ 0 < NUM_RIGS ∧ 1 < NUM_RIGS ∧
      find (unionIdx initUF 0 1) 0 = min (find initUF 0) (find initUF 1) :=
  ⟨initUF_inv, by decide, by decide,
    (C5_union_invariant initUF 0 1 initUF_inv (by decide) (by decide)).2.2.2.2.1⟩

/-- A union-find state reachable by two merges from the initial state, holding
a stale pointer: slot 2 points at 1 while the root of 2 is 0. -/
def staleState : Nat → Nat :=
  RigUnion.union (RigUnion.union initUF (Rig.fromNat 1) (Rig.fromNat 2))
    (Rig.fromNat 0) (Rig.fromNat 1)

/-- C6 counterexample: indices 2 and 0 already share root 0 in `staleState`,
yet calling union on them rewrites slot 2 (path compression), so the
disjoint-set state does change. -/
theorem C6_counterexample :
    find staleState 2 = find staleState 0 ∧
      RigUnion.union staleState (Rig.fromNat 2) (Rig.fromNat 0) 2 ≠ staleState 2 := by
  decide

/-- C6 (amended): union on two arguments that already share a root leaves the
partition (the same-root relation) unchanged — every `find` is preserved —
though the backing pointer array may still change by path compression. -/
theorem C6_amended (p : Nat → Nat) (r1 r2 : Rig) (hp : Desc p)
    (h : find p r1.to_int = find p r2.to_int) (k : Nat) :
    find (RigUnion.union p r1 r2) k = find p k :=
  unionIdx_noop_partition p r1.to_int r2.to_int hp h k

theorem C6_witness :
    Desc initUF ∧
      find (RigUnion.union initUF (Rig.fromNat 0) (Rig.fromNat 0)) 5
        = find initUF 5 :=
  ⟨fun k => Nat.le_refl k,
    C6_amended initUF (Rig.fromNat 0) (Rig.fromNat 0) (fun k => Nat.le_refl k) rfl 5⟩

/-! ## The saturation engine (`main` in the source) -/

/-- One iteration of the inner saturation loop body: read the stored pointers
of `i` and `j`; if either differs from its own index, merge
`op(decode i, decode j)` with `op(decode ptrs[i], decode ptrs[j])`. -/
def opStep (op : Rig → Rig → Rig) (p : Nat → Nat) (i j : Nat) : Nat → Nat :=
  if p i ≠ i ∨ p j ≠ j then
    RigUnion.union p (op (Rig.fromNat i) (Rig.fromNat j))
      (op (Rig.fromNat (p i)) (Rig.fromNat (p j)))
  else p

/-- The inner `for j` loop of a saturation pass. -/
def opRow (op : Rig → Rig → Rig) (p : Nat → Nat) (i : Nat) : Nat → Nat :=
  (List.range NUM_RIGS).foldl (fun s j => opStep op s i j) p

/-- A whole pass over all ordered pairs for one operator. -/
def opPass (op : Rig → Rig → Rig) (p : Nat → Nat) : Nat → Nat :=
  (List.range NUM_RIGS).foldl (opRow op) p

/-- One iteration of the `while` loop body: the addition pass followed by the
multiplication pass. -/
def passFn (p : Nat → Nat) : Nat → Nat := opPass Rig.mul (opPass Rig.add p)

/-- One seed-phase step: merge each rig with its square. -/
def seedStep (p : Nat → Nat) (i : Nat) : Nat → Nat :=
  RigUnion.union p (Rig.fromNat i) ((Rig.fromNat i).mul (Rig.fromNat i))

/-- The seed phase: identify every rig with its square. -/
def seedPhase : Nat → Nat := (List.range NUM_RIGS).foldl seedStep initUF

/-- The `while equiv_classes != old` loop, with fuel: compare the current
state with the snapshot (on the array's index range), stop when equal,
otherwise snapshot and run another pass. -/
def loopAux : Nat → (Nat → Nat) → (Nat → Nat) → (Nat → Nat)
  | 0, _, s => s
  | fuel + 1, old, s =>
      if ∀ k < NUM_RIGS, s k = old k then s else loopAux fuel s (passFn s)

/-- The state of `equiv_classes` after the saturation loop finishes
(the snapshot starts as the fresh identity array). -/
def finalState : Nat → Nat := loopAux (NUM_RIGS * NUM_RIGS) initUF seedPhase

/-- Decreasing measure for loop termination: the sum of all in-range
pointers. -/
def measureUF (p : Nat → Nat) : Nat := ∑ k ∈ Finset.range NUM_RIGS, p k

/-- A state-transformer step that preserves the invariant and never increases
any pointer. -/
def StepOk (g : (Nat → Nat) → Nat → (Nat → Nat)) : Prop :=
  ∀ t x, InvUF t → InvUF (g t x) ∧ (∀ m, g t x m ≤ t m)

theorem RigUnion.union_inv (p : Nat → Nat) (r1 r2 : Rig) (hp : InvUF p)
    (h1 : InUniverse r1) (h2 : InUniverse r2) : InvUF (RigUnion.union p r1 r2) :=
  unionIdx_inv p _ _ hp (Rig.to_int_lt r1 h1) (Rig.to_int_lt r2 h2)

theorem RigUnion.union_le (p : Nat → Nat) (r1 r2 : Rig) (hp : Desc p) :
    ∀ m, RigUnion.union p r1 r2 m ≤ p m :=
  unionIdx_le p _ _ hp

theorem foldl_inv (g : (Nat → Nat) → Nat → (Nat → Nat)) (hg : StepOk g) :
    ∀ (l : List Nat) (s : Nat → Nat), InvUF s →
      InvUF (l.foldl g s) ∧ ∀ m, l.foldl g s m ≤ s m := by
  intro l
  induction l with
  | nil => intro s hs; exact ⟨hs, fun m => Nat.le_refl _⟩
  | cons x l ih =>
    intro s hs
    have h1 := hg s x hs
    have h2 := ih (g s x) h1.1
    exact ⟨h2.1, fun m => Nat.le_trans (h2.2 m) (h1.2 m)⟩

theorem foldl_fixed (g : (Nat → Nat) → Nat → (Nat → Nat)) (hg : StepOk g) :
    ∀ (l : List Nat) (s : Nat → Nat), InvUF s → l.foldl g s = s →
      ∀ x ∈ l, g s x = s := by
  intro l
  induction l with
  | nil => intro s _ _ x hx; cases hx
  | cons y l ih =>
    intro s hs hfold x hx
    have h1 := hg s y hs
    have h2 := foldl_inv g hg l (g s y) h1.1
    have h3 : List.foldl g (g s y) l = s := hfold
    have hgys : g s y = s := by
      funext m
      have ha := h2.2 m
      rw [h3] at ha
      have hb := h1.2 m
      omega
    rcases List.mem_cons.mp hx with hx | hx
    · rw [hx]
      exact hgys
    · rw [hgys] at h3
      exact ih s hs h3 x hx

theorem opStep_stepOk (op : Rig → Rig → Rig)
    (hop : ∀ x y, InUniverse (op x y)) (i : Nat) :
    StepOk (fun s j => opStep op s i j) := by
  intro t j ht
  unfold opStep
  simp only []
  split_ifs with hc
  · exact ⟨RigUnion.union_inv t _ _ ht (hop _ _) (hop _ _),
      RigUnion.union_le t _ _ ht.1⟩
  · exact ⟨ht, fun m => Nat.le_refl _⟩

theorem opRow_stepOk (op : Rig → Rig → Rig)
    (hop : ∀ x y, InUniverse (op x y)) : StepOk (opRow op) := by
  intro t i ht
  exact foldl_inv _ (opStep_stepOk op hop i) (List.range NUM_RIGS) t ht

theorem opPass_inv_le (op : Rig → Rig → Rig)
    (hop : ∀ x y, InUniverse (op x y)) (p : Nat → Nat) (hp : InvUF p) :
    InvUF (opPass op p) ∧ ∀ m, opPass op p m ≤ p m :=
  foldl_inv (opRow op) (opRow_stepOk op hop) (List.range NUM_RIGS) p hp

theorem seedStep_stepOk : StepOk seedStep := by
  intro t i ht
  exact ⟨RigUnion.union_inv t _ _ ht (Rig.fromNat_inUniverse i)
      (Rig.mul_inUniverse _ _),
    RigUnion.union_le t _ _ ht.1⟩

theorem seedPhase_inv : InvUF seedPhase ∧ ∀ m, seedPhase m ≤ initUF m :=
  foldl_inv seedStep seedStep_stepOk (List.range NUM_RIGS) initUF initUF_inv

theorem passFn_inv_le (p : Nat → Nat) (hp : InvUF p) :
    InvUF (passFn p) ∧ ∀ m, passFn p m ≤ p m := by
  have ha := opPass_inv_le Rig.add Rig.add_inUniverse p hp
  have hb := opPass_inv_le Rig.mul Rig.mul_inUniverse (opPass Rig.add p) ha.1
  exact ⟨hb.1, fun m => Nat.le_trans (hb.2 m) (ha.2 m)⟩

theorem foldl_id {α : Type} (g : (Nat → Nat) → α → (Nat → Nat)) (s : Nat → Nat)
    (h : ∀ x, g s x = s) : ∀ l : List α, l.foldl g s = s := by
  intro l
  induction l with
  | nil => rfl
  | cons y l ih =>
    show List.foldl g (g s y) l = s
    rw [h y]
    exact ih

theorem opStep_initUF (op : Rig → Rig → Rig) (i j : Nat) :
    opStep op initUF i j = initUF := by
  unfold opStep
  rw [if_neg]
  simp [initUF]

theorem opRow_initUF (op : Rig → Rig → Rig) (i : Nat) :
    opRow op initUF i = initUF :=
  foldl_id _ initUF (opStep_initUF op i) (List.range NUM_RIGS)

theorem opPass_initUF (op : Rig → Rig → Rig) : opPass op initUF = initUF :=
  foldl_id _ initUF (opRow_initUF op) (List.range NUM_RIGS)

theorem passFn_initUF : passFn initUF = initUF := by
  show opPass Rig.mul (opPass Rig.add initUF) = initUF
  rw [opPass_initUF Rig.add, opPass_initUF Rig.mul]

theorem measure_le (p q : Nat → Nat) (h : ∀ m, q m ≤ p m) :
    measureUF q ≤ measureUF p :=
  Finset.sum_le_sum (fun k _ => h k)

theorem measure_lt (p q : Nat → Nat) (h : ∀ m, q m ≤ p m) (k : Nat)
    (hk : k < NUM_RIGS) (hne : q k ≠ p k) : measureUF q < measureUF p :=
  Finset.sum_lt_sum (fun m _ => h m)
    ⟨k, Finset.mem_range.mpr hk, Nat.lt_of_le_of_ne (h k) hne⟩

theorem eq_of_eqBelow (p q : Nat → Nat) (hp : HighId p) (hq : HighId q)
    (h : ∀ k < NUM_RIGS, p k = q k) : p = q := by
  funext k
  by_cases hk : k < NUM_RIGS
  · exact h k hk
  · rw [hp k (by omega), hq k (by omega)]

theorem loopAux_spec :
    ∀ fuel old s, InvUF s → measureUF s < fuel →
      ((∀ k < NUM_RIGS, s k = old k) → passFn s = s) →
      InvUF (loopAux fuel old s) ∧
        passFn (loopAux fuel old s) = loopAux fuel old s := by
  intro fuel
  induction fuel with
  | zero => intro old s _ h _; omega
  | succ f ih =>
    intro old s hs hm hexit
    have hunf : loopAux (f + 1) old s
        = if ∀ k < NUM_RIGS, s k = old k then s else loopAux f s (passFn s) := rfl
    by_cases hc : ∀ k < NUM_RIGS, s k = old k
    · rw [hunf, if_pos hc]
      exact ⟨hs, hexit hc⟩
    · rw [hunf, if_neg hc]
      have hps := passFn_inv_le s hs
      by_cases hfix : passFn s = s
      · rw [hfix]
        have hloop : loopAux f s s = s := by
          cases f with
          | zero => rfl
          | succ f2 =>
            show (if ∀ k < NUM_RIGS, s k = s k then s else _) = s
            rw [if_pos (fun k _ => rfl)]
        rw [hloop]
        exact ⟨hs, hfix⟩
      · have hneq : ∃ k, k < NUM_RIGS ∧ passFn s k ≠ s k := by
          by_contra hno
          push_neg at hno
          exact hfix (eq_of_eqBelow (passFn s) s hps.1.2 hs.2
            (fun k hk => hno k hk))
        obtain ⟨k, hk, hkne⟩ := hneq
        have hlt : measureUF (passFn s) < measureUF s :=
          measure_lt s (passFn s) hps.2 k hk hkne
        refine ih s (passFn s) hps.1 (by omega) ?_
        intro hb
        have he := eq_of_eqBelow (passFn s) s hps.1.2 hs.2 hb
        rw [he]
        exact he

theorem finalState_spec : InvUF finalState ∧ passFn finalState = finalState := by
  have hseed := seedPhase_inv
  have hposN : 0 < NUM_RIGS := by decide
  have hm : measureUF seedPhase < NUM_RIGS * NUM_RIGS := by
    have h1 : measureUF seedPhase ≤ measureUF initUF :=
      measure_le initUF seedPhase hseed.2
    have h2 : measureUF initUF < NUM_RIGS * NUM_RIGS := by
      unfold measureUF
      have h3 : ∀ k ∈ Finset.range NUM_RIGS, initUF k ≤ NUM_RIGS - 1 := by
        intro k hk
        have := Finset.mem_range.mp hk
        show k ≤ NUM_RIGS - 1
        omega
      calc ∑ k ∈ Finset.range NUM_RIGS, initUF k
          ≤ (Finset.range NUM_RIGS).card * (NUM_RIGS - 1) := by
            have := Finset.sum_le_card_nsmul (Finset.range NUM_RIGS) initUF
              (NUM_RIGS - 1) h3
            simpa using this
        _ < NUM_RIGS * NUM_RIGS := by
            rw [Finset.card_range]
            have : NUM_RIGS - 1 < NUM_RIGS := by omega
            exact (Nat.mul_lt_mul_left hposN).mpr this
    omega
  have hres := loopAux_spec (NUM_RIGS * NUM_RIGS) initUF seedPhase hseed.1 hm ?_
  · exact hres
  · intro hb
    have he := eq_of_eqBelow seedPhase initUF hseed.1.2 initUF_inv.2 hb
    rw [he]
    exact passFn_initUF

theorem passFn_fix_opPass (s : Nat → Nat) (hs : InvUF s) (h : passFn s = s) :
    opPass Rig.add s = s ∧ opPass Rig.mul s = s := by
  have ha := opPass_inv_le Rig.add Rig.add_inUniverse s hs
  have hb := opPass_inv_le Rig.mul Rig.mul_inUniverse (opPass Rig.add s) ha.1
  have h4 : opPass Rig.mul (opPass Rig.add s) = s := h
  have hA : opPass Rig.add s = s := by
    funext m
    have h1 := hb.2 m
    have h2 : opPass Rig.mul (opPass Rig.add s) m = s m := congrFun h4 m
    have h3 := ha.2 m
    omega
  refine ⟨hA, ?_⟩
  rw [hA] at h4
  exact h4

theorem opPass_steps_fixed (op : Rig → Rig → Rig)
    (hop : ∀ x y, InUniverse (op x y)) (s : Nat → Nat) (hs : InvUF s)
    (h : opPass op s = s) :
    ∀ i j, i < NUM_RIGS → j < NUM_RIGS → opStep op s i j = s := by
  intro i j hi hj
  have hrow : opRow op s i = s :=
    foldl_fixed (opRow op) (opRow_stepOk op hop) (List.range NUM_RIGS) s hs h
      i (List.mem_range.mpr hi)
  exact foldl_fixed _ (opStep_stepOk op hop i) (List.range NUM_RIGS) s hs hrow
    j (List.mem_range.mpr hj)

theorem opStep_fixed_find (op : Rig → Rig → Rig) (s : Nat → Nat) (hs : InvUF s)
    (i j : Nat) (hstep : opStep op s i j = s) (hcond : s i ≠ i ∨ s j ≠ j) :
    find s ((op (Rig.fromNat i) (Rig.fromNat j)).to_int)
      = find s ((op (Rig.fromNat (s i)) (Rig.fromNat (s j))).to_int) := by
  unfold opStep at hstep
  rw [if_pos hcond] at hstep
  exact unionIdx_self_eq_imp s _ _ hs.1 hstep

theorem fix_congruence (op : Rig → Rig → Rig)
    (s : Nat → Nat) (hs : InvUF s)
    (hfix : ∀ i j, i < NUM_RIGS → j < NUM_RIGS → opStep op s i j = s) :
    ∀ n i j, i + j ≤ n → i < NUM_RIGS → j < NUM_RIGS →
      find s ((op (Rig.fromNat i) (Rig.fromNat j)).to_int)
        = find s ((op (Rig.fromNat (find s i)) (Rig.fromNat (find s j))).to_int) := by
  intro n
  induction n with
  | zero =>
    intro i j hij hi hj
    obtain rfl : i = 0 := by omega
    obtain rfl : j = 0 := by omega
    have h0 : s 0 = 0 := Nat.le_zero.mp (hs.1 0)
    rw [find_of_root s 0 h0]
  | succ n ih =>
    intro i j hij hi hj
    have key : (s i ≠ i ∨ s j ≠ j) →
        find s ((op (Rig.fromNat i) (Rig.fromNat j)).to_int)
          = find s ((op (Rig.fromNat (find s i)) (Rig.fromNat (find s j))).to_int) := by
      intro hcond
      have h1 := opStep_fixed_find op s hs i j (hfix i j hi hj) hcond
      have hsi : s i < NUM_RIGS := Nat.lt_of_le_of_lt (hs.1 i) hi
      have hsj : s j < NUM_RIGS := Nat.lt_of_le_of_lt (hs.1 j) hj
      have hsum : s i + s j ≤ n := by
        have hx := hs.1 i
        have hy := hs.1 j
        omega
      have h2 := ih (s i) (s j) hsum hsi hsj
      rw [find_apply s hs.1 i, find_apply s hs.1 j] at h2
      rw [h1, h2]
    by_cases hri : s i = i
    · by_cases hrj : s j = j
      · rw [find_of_root s i hri, find_of_root s j hrj]
      · exact key (Or.inr hrj)
    · exact key (Or.inl hri)

theorem final_congruence (op : Rig → Rig → Rig)
    (hop : ∀ x y, InUniverse (op x y))
    (hpass : opPass op finalState = finalState) :
    ∀ i j, i < NUM_RIGS → j < NUM_RIGS →
      find finalState ((op (Rig.fromNat i) (Rig.fromNat j)).to_int)
        = find finalState
            ((op (Rig.fromNat (find finalState i))
              (Rig.fromNat (find finalState j))).to_int) := by
  intro i j hi hj
  exact fix_congruence op finalState finalState_spec.1
    (opPass_steps_fixed op hop finalState finalState_spec.1 hpass)
    (i + j) i j (Nat.le_refl _) hi hj

/-- C1: after the seed phase and the saturation loop complete, the final
partition is a congruence: indices with equal roots give results with equal
roots when combined (by `add` or by `mul`) with any third index. -/
theorem C1_congruence_after_saturation (i i2 j : Nat)
    (hi : i < NUM_RIGS) (hi2 : i2 < NUM_RIGS) (hj : j < NUM_RIGS)
    (hfind : find finalState i = find finalState i2) :
    find finalState ((Rig.add (Rig.fromNat i) (Rig.fromNat j)).to_int)
        = find finalState ((Rig.add (Rig.fromNat i2) (Rig.fromNat j)).to_int) ∧
      find finalState ((Rig.mul (Rig.fromNat i) (Rig.fromNat j)).to_int)
        = find finalState ((Rig.mul (Rig.fromNat i2) (Rig.fromNat j)).to_int) := by
  have hfixes := passFn_fix_opPass finalState finalState_spec.1 finalState_spec.2
  constructor
  · rw [final_congruence Rig.add Rig.add_inUniverse hfixes.1 i j hi hj,
      final_congruence Rig.add Rig.add_inUniverse hfixes.1 i2 j hi2 hj, hfind]
  · rw [final_congruence Rig.mul Rig.mul_inUniverse hfixes.2 i j hi hj,
      final_congruence Rig.mul Rig.mul_inUniverse hfixes.2 i2 j hi2 hj, hfind]

theorem C1_witness :
    0 < NUM_RIGS ∧
      (find finalState ((Rig.add (Rig.fromNat 0) (Rig.fromNat 0)).to_int)
          = find finalState ((Rig.add (Rig.fromNat 0) (Rig.fromNat 0)).to_int) ∧
        find finalState ((Rig.mul (Rig.fromNat 0) (Rig.fromNat 0)).to_int)
          = find finalState ((Rig.mul (Rig.fromNat 0) (Rig.fromNat 0)).to_int)) :=
  ⟨by decide, C1_congruence_after_saturation 0 0 0 (by decide) (by decide)
    (by decide) rfl⟩

theorem opStep_mono (op : Rig → Rig → Rig) (t : Nat → Nat) (i j : Nat)
    (ht : InvUF t) (a b : Nat) (h : find t a = find t b) :
    find (opStep op t i j) a = find (opStep op t i j) b := by
  unfold opStep
  split_ifs with hc
  · exact unionIdx_mono t _ _ a b ht.1 h
  · exact h

theorem foldl_mono (g : (Nat → Nat) → Nat → (Nat → Nat)) (hg : StepOk g)
    (hmono : ∀ t x, InvUF t → ∀ a b, find t a = find t b →
      find (g t x) a = find (g t x) b) :
    ∀ (l : List Nat) (s : Nat → Nat), InvUF s → ∀ a b, find s a = find s b →
      find (l.foldl g s) a = find (l.foldl g s) b := by
  intro l
  induction l with
  | nil => intro s _ a b h; exact h
  | cons y l ih =>
    intro s hs a b h
    exact ih (g s y) (hg s y hs).1 a b (hmono s y hs a b h)

theorem opRow_mono (op : Rig → Rig → Rig) (hop : ∀ x y, InUniverse (op x y))
    (t : Nat → Nat) (i : Nat) (ht : InvUF t) (a b : Nat)
    (h : find t a = find t b) :
    find (opRow op t i) a = find (opRow op t i) b :=
  foldl_mono _ (opStep_stepOk op hop i)
    (fun t x ht a b hx => opStep_mono op t i x ht a b hx)
    (List.range NUM_RIGS) t ht a b h

theorem opPass_mono (op : Rig → Rig → Rig) (hop : ∀ x y, InUniverse (op x y))
    (s : Nat → Nat) (hs : InvUF s) (a b : Nat) (h : find s a = find s b) :
    find (opPass op s) a = find (opPass op s) b :=
  foldl_mono (opRow op) (opRow_stepOk op hop)
    (fun t x ht a b hx => opRow_mono op hop t x ht a b hx)
    (List.range NUM_RIGS) s hs a b h

theorem passFn_mono (s : Nat → Nat) (hs : InvUF s) (a b : Nat)
    (h : find s a = find s b) :
    find (passFn s) a = find (passFn s) b := by
  have ha := opPass_inv_le Rig.add Rig.add_inUniverse s hs
  exact opPass_mono Rig.mul Rig.mul_inUniverse (opPass Rig.add s) ha.1 a b
    (opPass_mono Rig.add Rig.add_inUniverse s hs a b h)

/-- C7: each saturation pass only ever merges classes (equal roots stay
equal, so the partition only coarsens and the number of classes cannot
increase), and the repeat-until-no-change loop reaches a state that a
further pass leaves unchanged, where it stops. -/
theorem C7_loop_terminates (s : Nat → Nat) (hs : InvUF s) (k l : Nat)
    (hkl : find s k = find s l) :
    find (passFn s) k = find (passFn s) l ∧ passFn finalState = finalState :=
  ⟨passFn_mono s hs k l hkl, finalState_spec.2⟩

theorem C7_witness :
    InvUF initUF ∧
      (find (passFn initUF) 0 = find (passFn initUF) 0 ∧
        passFn finalState = finalState) :=
  ⟨initUF_inv, C7_loop_terminates initUF initUF_inv 0 0 rfl⟩

/-- C2 counterexample: at the state `staleState` — reached from the fresh
array by the merges (1,2) then (0,1) — slot 2 stores pointer 1 while its root
is 0.  The pass step for the pair (2, 4) under `add` merges using the stored
pointer (`decode 1`), not the root (`decode 0`) as the claim describes: the
two resulting states differ at index 6. -/
theorem C2_counterexample :
    find staleState 2 ≠ 2 ∧
      opStep Rig.add staleState 2 4 6 ≠
        unionIdx staleState ((Rig.add (Rig.fromNat 2) (Rig.fromNat 4)).to_int)
          ((Rig.add (Rig.fromNat (find staleState 2))
            (Rig.fromNat (find staleState 4))).to_int) 6 := by
  decide

/-- C2 (amended): in each pass step the guard `ptrs[i] ≠ i or ptrs[j] ≠ j` is
equivalent to `find(i) ≠ i or find(j) ≠ j`, and exactly when it holds the
engine computes `op(decode i, decode j)` and `op(decode ptrs[i],
decode ptrs[j])` — using the stored one-step pointers, not the full roots —
encodes both and merges them; otherwise it leaves the state untouched. -/
theorem C2_amended (op : Rig → Rig → Rig) (s : Nat → Nat) (hs : InvUF s)
    (i j : Nat) :
    ((s i ≠ i ∨ s j ≠ j) ↔ (find s i ≠ i ∨ find s j ≠ j)) ∧
      opStep op s i j =
        if find s i ≠ i ∨ find s j ≠ j then
          RigUnion.union s (op (Rig.fromNat i) (Rig.fromNat j))
            (op (Rig.fromNat (s i)) (Rig.fromNat (s j)))
        else s := by
  have hiff : ∀ k, s k = k ↔ find s k = k := by
    intro k
    constructor
    · exact find_of_root s k
    · intro h
      by_contra hne
      have hlt : s k < k := Nat.lt_of_le_of_ne (hs.1 k) hne
      have h2 := find_le_apply s hs.1 k
      omega
  have hIff : (s i ≠ i ∨ s j ≠ j) ↔ (find s i ≠ i ∨ find s j ≠ j) := by
    constructor
    · intro h
      rcases h with h | h
      · exact Or.inl (fun hx => h ((hiff i).mpr hx))
      · exact Or.inr (fun hx => h ((hiff j).mpr hx))
    · intro h
      rcases h with h | h
      · exact Or.inl (fun hx => h ((hiff i).mp hx))
      · exact Or.inr (fun hx => h ((hiff j).mp hx))
  refine ⟨hIff, ?_⟩
  unfold opStep
  by_cases hc : s i ≠ i ∨ s j ≠ j
  · rw [if_pos hc, if_pos (hIff.mp hc)]
  · rw [if_neg hc, if_neg (fun hx => hc (hIff.mpr hx))]

theorem C2_witness :
    InvUF initUF ∧
      (((initUF 0 ≠ 0 ∨ initUF 0 ≠ 0) ↔
          (find initUF 0 ≠ 0 ∨ find initUF 0 ≠ 0)) ∧
        opStep Rig.add initUF 0 0 =
          if find initUF 0 ≠ 0 ∨ find initUF 0 ≠ 0 then
            RigUnion.union initUF (Rig.add (Rig.fromNat 0) (Rig.fromNat 0))
              (Rig.add (Rig.fromNat (initUF 0)) (Rig.fromNat (initUF 0)))
          else initUF) :=
  ⟨initUF_inv, C2_amended Rig.add initUF initUF_inv 0 0⟩

/-! ## Reading out the equivalence classes (`RigUnion::get_classes`) -/

theorem unionIdx_apply_snd (p : Nat → Nat) (i j : Nat) (hp : Desc p) :
    unionIdx p i j j = min (find p i) (find p j) :=
  (unionIdx_spec p i j hp).2.2.2.1

theorem Rig.fromNat_inj (m i : Nat) (hm : m < NUM_RIGS) (hi : i < NUM_RIGS)
    (h : Rig.fromNat m = Rig.fromNat i) : m = i := by
  have h2 := congrArg Rig.to_int h
  rwa [Rig.to_int_from m hm, Rig.to_int_from i hi] at h2

/-- Insert a rig into the bucket keyed by `key` (the embedding of the
`sets.entry(tgt).or_insert(Vec::new()).push(rig)` line; the `HashMap` is
modelled as an association list whose buckets appear in order of first
creation). -/
def insertClass : List (Nat × List Rig) → Nat → Rig → List (Nat × List Rig)
  | [], key, idx => [(key, [idx])]
  | (k, xs) :: rest, key, idx =>
      if k = key then (k, xs ++ [idx]) :: rest
      else (k, xs) :: insertClass rest key idx

/-- One iteration of the `get_classes` loop: normalise the entry for `i` with
a self-union, then push `Rig::from(i)` into the bucket of `ptrs[i]`. -/
def getClassesStep (st : (Nat → Nat) × List (Nat × List Rig)) (i : Nat) :
    (Nat → Nat) × List (Nat × List Rig) :=
  (RigUnion.union st.1 (Rig.fromNat i) (Rig.fromNat i),
    insertClass st.2 (RigUnion.union st.1 (Rig.fromNat i) (Rig.fromNat i) i)
      (Rig.fromNat i))

/-- The `get_classes` loop state after processing indices `0 .. k`. -/
def gcFold (p : Nat → Nat) (k : Nat) : (Nat → Nat) × List (Nat × List Rig) :=
  (List.range k).foldl getClassesStep (p, [])

/-- `RigUnion::get_classes`: sweep the whole universe and return the buckets. -/
def get_classes (p : Nat → Nat) : List (List Rig) :=
  (gcFold p NUM_RIGS).2.map Prod.snd

/-- The bucket that the sweep builds for root `r` after `k` steps: all indices
below `k` whose chain resolves to `r`, decoded, in index order. -/
def bucketFor (p : Nat → Nat) (k r : Nat) : List Rig :=
  ((List.range k).filter (fun m => decide (find p m = r))).map Rig.fromNat

theorem bucketFor_mem (p : Nat → Nat) (k r i : Nat) (hi : i < NUM_RIGS)
    (hk : k ≤ NUM_RIGS) :
    Rig.fromNat i ∈ bucketFor p k r ↔ (i < k ∧ find p i = r) := by
  unfold bucketFor
  constructor
  · intro h
    obtain ⟨m, hm, hmi⟩ := List.mem_map.mp h
    obtain ⟨hmr, hdec⟩ := List.mem_filter.mp hm
    have hmlt : m < k := List.mem_range.mp hmr
    have hme : m = i := Rig.fromNat_inj m i (by omega) hi hmi
    subst hme
    exact ⟨hmlt, of_decide_eq_true hdec⟩
  · intro h
    exact List.mem_map.mpr ⟨i,
      List.mem_filter.mpr ⟨List.mem_range.mpr h.1, decide_eq_true h.2⟩, rfl⟩

theorem bucketFor_succ (p : Nat → Nat) (k r : Nat) :
    bucketFor p (k + 1) r =
      if find p k = r then bucketFor p k r ++ [Rig.fromNat k]
      else bucketFor p k r := by
  unfold bucketFor
  rw [List.range_succ, List.filter_append, List.map_append]
  by_cases h : find p k = r
  · rw [if_pos h]
    simp [h]
  · rw [if_neg h]
    simp [h]

theorem bucketFor_nil (p : Nat → Nat) (k r : Nat)
    (h : ¬∃ m, m < k ∧ find p m = r) : bucketFor p k r = [] := by
  unfold bucketFor
  have h2 : (List.range k).filter (fun m => decide (find p m = r)) = [] := by
    rw [List.filter_eq_nil_iff]
    intro m hm hdec
    exact h ⟨m, List.mem_range.mp hm, of_decide_eq_true hdec⟩
  rw [h2]
  rfl

theorem insertClass_keys (acc : List (Nat × List Rig)) (key : Nat) (idx : Rig) :
    (insertClass acc key idx).map Prod.fst =
      if key ∈ acc.map Prod.fst then acc.map Prod.fst
      else acc.map Prod.fst ++ [key] := by
  induction acc with
  | nil => simp [insertClass]
  | cons hd rest ih =>
    obtain ⟨k0, xs0⟩ := hd
    by_cases hk : k0 = key
    · subst hk
      simp [insertClass]
    · have hstep : insertClass ((k0, xs0) :: rest) key idx
          = (k0, xs0) :: insertClass rest key idx := by
        simp [insertClass, hk]
      rw [hstep]
      by_cases hmem : key ∈ rest.map Prod.fst
      · have hm2 : key ∈ ((k0, xs0) :: rest).map Prod.fst := by
          simp [hmem]
        rw [if_pos hm2]
        simp only [List.map_cons]
        rw [ih, if_pos hmem]
      · have hm2 : key ∉ ((k0, xs0) :: rest).map Prod.fst := by
          simp [hmem]
          omega
        rw [if_neg hm2]
        simp only [List.map_cons]
        rw [ih, if_neg hmem]
        rfl

theorem insertClass_mem_cases (acc : List (Nat × List Rig)) (key : Nat)
    (idx : Rig) (hnd : (acc.map Prod.fst).Nodup) :
    ∀ pr ∈ insertClass acc key idx,
      (pr ∈ acc ∧ pr.1 ≠ key) ∨
      (∃ xs, (key, xs) ∈ acc ∧ pr = (key, xs ++ [idx])) ∨
      (key ∉ acc.map Prod.fst ∧ pr = (key, [idx])) := by
  induction acc with
  | nil =>
    intro pr hpr
    simp [insertClass] at hpr
    right; right
    exact ⟨by simp, by rw [hpr]⟩
  | cons hd rest ih =>
    obtain ⟨k0, xs0⟩ := hd
    intro pr hpr
    by_cases hk : k0 = key
    · subst hk
      have hstep : insertClass ((k0, xs0) :: rest) k0 idx
          = (k0, xs0 ++ [idx]) :: rest := by
        simp [insertClass]
      rw [hstep] at hpr
      rcases List.mem_cons.mp hpr with h | h
      · right; left
        exact ⟨xs0, List.mem_cons_self _ _, h⟩
      · left
        refine ⟨List.mem_cons_of_mem _ h, ?_⟩
        intro hpk
        simp only [List.map_cons, List.nodup_cons] at hnd
        exact hnd.1 (List.mem_map.mpr ⟨pr, h, hpk⟩)
    · have hstep : insertClass ((k0, xs0) :: rest) key idx
          = (k0, xs0) :: insertClass rest key idx := by
        simp [insertClass, hk]
      rw [hstep] at hpr
      simp only [List.map_cons, List.nodup_cons] at hnd
      rcases List.mem_cons.mp hpr with h | h
      · left
        subst h
        exact ⟨List.mem_cons_self _ _, hk⟩
      · rcases ih hnd.2 pr h with h2 | h2 | h2
        · exact Or.inl ⟨List.mem_cons_of_mem _ h2.1, h2.2⟩
        · obtain ⟨xs, hxs, hpr2⟩ := h2
          exact Or.inr (Or.inl ⟨xs, List.mem_cons_of_mem _ hxs, hpr2⟩)
        · right; right
          refine ⟨?_, h2.2⟩
          simp only [List.map_cons, List.mem_cons]
          intro hx
          rcases hx with hx | hx
          · exact hk hx.symm
          · exact h2.1 hx

theorem insertClass_len_sum (acc : List (Nat × List Rig)) (key : Nat) (idx : Rig) :
    ((insertClass acc key idx).map (fun pr => pr.2.length)).sum
      = ((acc.map (fun pr => pr.2.length)).sum) + 1 := by
  induction acc with
  | nil => simp [insertClass]
  | cons hd rest ih =>
    obtain ⟨k0, xs0⟩ := hd
    by_cases hk : k0 = key
    · subst hk
      simp [insertClass]
      omega
    · have hstep : insertClass ((k0, xs0) :: rest) key idx
          = (k0, xs0) :: insertClass rest key idx := by
        simp [insertClass, hk]
      rw [hstep]
      simp only [List.map_cons, List.sum_cons, ih]
      omega

theorem gcFold_succ (p : Nat → Nat) (k : Nat) :
    gcFold p (k + 1) = getClassesStep (gcFold p k) k := by
  unfold gcFold
  rw [List.range_succ, List.foldl_append]
  rfl

theorem gcFold_inv (p : Nat → Nat) (hp : InvUF p) :
    ∀ k, k ≤ NUM_RIGS →
      InvUF (gcFold p k).1 ∧
      (∀ m, find (gcFold p k).1 m = find p m) ∧
      ((gcFold p k).2.map Prod.fst).Nodup ∧
      (∀ r, r ∈ (gcFold p k).2.map Prod.fst ↔ ∃ m, m < k ∧ find p m = r) ∧
      (∀ pr ∈ (gcFold p k).2, pr.2 = bucketFor p k pr.1) ∧
      ((gcFold p k).2.map (fun pr => pr.2.length)).sum = k := by
  intro k
  induction k with
  | zero =>
    intro _
    refine ⟨hp, fun m => rfl, List.nodup_nil, ?_, ?_, rfl⟩
    · intro r
      constructor
      · intro h
        simp [gcFold] at h
      · intro h
        obtain ⟨m, hm, _⟩ := h
        omega
    · intro pr hpr
      simp [gcFold] at hpr
  | succ k ih =>
    intro hkN1
    obtain ⟨h1, h2, h3, h4, h5, h6⟩ := ih (by omega)
    have hkN : k < NUM_RIGS := by omega
    have htik : (Rig.fromNat k).to_int = k := Rig.to_int_from k hkN
    have hsu : RigUnion.union (gcFold p k).1 (Rig.fromNat k) (Rig.fromNat k)
        = unionIdx (gcFold p k).1 k k := by
      unfold RigUnion.union
      rw [htik]
    have hs2inv : InvUF (unionIdx (gcFold p k).1 k k) :=
      unionIdx_inv _ k k h1 hkN hkN
    have hs2find : ∀ m, find (unionIdx (gcFold p k).1 k k) m = find p m :=
      fun m => (unionIdx_noop_partition (gcFold p k).1 k k h1.1 rfl m).trans (h2 m)
    have hkey : unionIdx (gcFold p k).1 k k k = find p k := by
      rw [unionIdx_apply_snd (gcFold p k).1 k k h1.1, min_self]
      exact h2 k
    have hstate : gcFold p (k + 1)
        = (unionIdx (gcFold p k).1 k k,
            insertClass (gcFold p k).2 (find p k) (Rig.fromNat k)) := by
      rw [gcFold_succ]
      unfold getClassesStep
      rw [hsu, hkey]
    rw [hstate]
    refine ⟨hs2inv, hs2find, ?_, ?_, ?_, ?_⟩
    · show ((insertClass (gcFold p k).2 (find p k) (Rig.fromNat k)).map Prod.fst).Nodup
      rw [insertClass_keys]
      split_ifs with hmem
      · exact h3
      · rw [List.nodup_append]
        refine ⟨h3, List.nodup_singleton _, ?_⟩
        intro a ha hb
        simp at hb
        subst hb
        exact hmem ha
    · intro r
      show r ∈ (insertClass (gcFold p k).2 (find p k) (Rig.fromNat k)).map Prod.fst ↔ _
      rw [insertClass_keys]
      split_ifs with hmem
      · rw [h4 r]
        constructor
        · intro h
          obtain ⟨m, hm, hfm⟩ := h
          exact ⟨m, by omega, hfm⟩
        · intro h
          obtain ⟨m, hm, hfm⟩ := h
          by_cases hmk : m = k
          · subst hmk
            subst hfm
            exact (h4 (find p m)).mp hmem
          · exact ⟨m, by omega, hfm⟩
      · rw [List.mem_append]
        simp only [List.mem_singleton]
        rw [h4 r]
        constructor
        · intro h
          rcases h with h | h
          · obtain ⟨m, hm, hfm⟩ := h
            exact ⟨m, by omega, hfm⟩
          · exact ⟨k, by omega, h.symm⟩
        · intro h
          obtain ⟨m, hm, hfm⟩ := h
          by_cases hmk : m = k
          · subst hmk
            exact Or.inr hfm.symm
          · exact Or.inl ⟨m, by omega, hfm⟩
    · intro pr hpr
      rcases insertClass_mem_cases (gcFold p k).2 (find p k) (Rig.fromNat k) h3
          pr hpr with hc | hc | hc
      · rw [h5 pr hc.1, bucketFor_succ, if_neg (fun hx => hc.2 hx.symm)]
      · obtain ⟨xs, hxs, hpr2⟩ := hc
        have hxb : xs = bucketFor p k (find p k) := h5 (find p k, xs) hxs
        rw [hpr2]
        show xs ++ [Rig.fromNat k] = bucketFor p (k + 1) (find p k)
        rw [bucketFor_succ, if_pos rfl, hxb]
      · have hb : bucketFor p k (find p k) = [] := by
          apply bucketFor_nil
          intro hex
          exact hc.1 ((h4 (find p k)).mpr hex)
        rw [hc.2]
        show [Rig.fromNat k] = bucketFor p (k + 1) (find p k)
        rw [bucketFor_succ, if_pos rfl, hb]
        rfl
    · show ((insertClass (gcFold p k).2 (find p k) (Rig.fromNat k)).map
          (fun pr => pr.2.length)).sum = k + 1
      rw [insertClass_len_sum, h6]

theorem get_classes_mem (p : Nat → Nat) (hp : InvUF p) (c : List Rig)
    (hc : c ∈ get_classes p) :
    ∃ r, (∃ m, m < NUM_RIGS ∧ find p m = r) ∧ c = bucketFor p NUM_RIGS r := by
  obtain ⟨hInv, hfind, hnd, hkeys, hbuckets, hsum⟩ :=
    gcFold_inv p hp NUM_RIGS (Nat.le_refl _)
  obtain ⟨pr, hpr, hsnd⟩ := List.mem_map.mp hc
  refine ⟨pr.1, (hkeys pr.1).mp (List.mem_map.mpr ⟨pr, hpr, rfl⟩), ?_⟩
  rw [← hsnd]
  exact hbuckets pr hpr

theorem get_classes_nonempty (p : Nat → Nat) (hp : InvUF p) :
    ∀ c ∈ get_classes p, c ≠ [] := by
  intro c hc
  obtain ⟨r, ⟨m, hm, hfm⟩, hcb⟩ := get_classes_mem p hp c hc
  have hmem : Rig.fromNat m ∈ c := by
    rw [hcb]
    exact (bucketFor_mem p NUM_RIGS r m hm (Nat.le_refl _)).mpr ⟨hm, hfm⟩
  exact List.ne_nil_of_mem hmem

/-- C10: `get_classes` returns a partition of the universe: every universe
index appears in exactly one returned class, every class is nonempty, the
class sizes sum to `NUM_RIGS`, and two indices land in a common class exactly
when their pointer chains resolve to the same root. -/
theorem C10_get_classes_partition (p : Nat → Nat) (hp : InvUF p) (i j : Nat)
    (hi : i < NUM_RIGS) (hj : j < NUM_RIGS) :
    (∃! c, c ∈ get_classes p ∧ Rig.fromNat i ∈ c) ∧
    (∀ c ∈ get_classes p, c ≠ []) ∧
    ((get_classes p).map List.length).sum = NUM_RIGS ∧
    ((∃ c, c ∈ get_classes p ∧ Rig.fromNat i ∈ c ∧ Rig.fromNat j ∈ c) ↔
      find p i = find p j) := by
  obtain ⟨hInv, hfind, hnd, hkeys, hbuckets, hsum⟩ :=
    gcFold_inv p hp NUM_RIGS (Nat.le_refl _)
  have hkmem : find p i ∈ (gcFold p NUM_RIGS).2.map Prod.fst :=
    (hkeys (find p i)).mpr ⟨i, hi, rfl⟩
  obtain ⟨pr, hpr, hfst⟩ := List.mem_map.mp hkmem
  have hbc : pr.2 = bucketFor p NUM_RIGS (find p i) := by
    rw [hbuckets pr hpr, hfst]
  have hcmem : pr.2 ∈ get_classes p := List.mem_map.mpr ⟨pr, hpr, rfl⟩
  have himem : Rig.fromNat i ∈ pr.2 := by
    rw [hbc]
    exact (bucketFor_mem p NUM_RIGS (find p i) i hi (Nat.le_refl _)).mpr ⟨hi, rfl⟩
  refine ⟨?_, get_classes_nonempty p hp, ?_, ?_⟩
  · refine ⟨pr.2, ⟨hcmem, himem⟩, ?_⟩
    intro c hc
    obtain ⟨r, _, hcb⟩ := get_classes_mem p hp c hc.1
    have hir : find p i = r := by
      have := hcb ▸ hc.2
      exact ((bucketFor_mem p NUM_RIGS r i hi (Nat.le_refl _)).mp this).2
    rw [hcb, ← hir, ← hbc]
  · show (((gcFold p NUM_RIGS).2.map Prod.snd).map List.length).sum = NUM_RIGS
    rw [List.map_map]
    exact hsum
  · constructor
    · intro h
      obtain ⟨c, hc, hic, hjc⟩ := h
      obtain ⟨r, _, hcb⟩ := get_classes_mem p hp c hc
      rw [hcb] at hic hjc
      have h1 := ((bucketFor_mem p NUM_RIGS r i hi (Nat.le_refl _)).mp hic).2
      have h2 := ((bucketFor_mem p NUM_RIGS r j hj (Nat.le_refl _)).mp hjc).2
      omega
    · intro h
      refine ⟨pr.2, hcmem, himem, ?_⟩
      rw [hbc]
      exact (bucketFor_mem p NUM_RIGS (find p i) j hj (Nat.le_refl _)).mpr
        ⟨hj, h.symm⟩

theorem C10_witness :
    InvUF initUF ∧ 0 < NUM_RIGS ∧ 1 < NUM_RIGS ∧
      ((∃! c, c ∈ get_classes initUF ∧ Rig.fromNat 0 ∈ c) ∧
        (∀ c ∈ get_classes initUF, c ≠ []) ∧
        ((get_classes initUF).map List.length).sum = NUM_RIGS ∧
        ((∃ c, c ∈ get_classes initUF ∧ Rig.fromNat 0 ∈ c ∧ Rig.fromNat 1 ∈ c)
          ↔ find initUF 0 = find initUF 1)) :=
  ⟨initUF_inv, by decide, by decide,
    C10_get_classes_partition initUF initUF_inv 0 1 (by decide) (by decide)⟩

/-! ## The printed report -/

/-- The vector the program prints: class sizes, sorted ascending by `sort()`
and then reversed to descending order. -/
def reportSizes (p : Nat → Nat) : List Nat :=
  (((get_classes p).map List.length).mergeSort (fun a b => a ≤ b)).reverse

/-- The printed total: the length of the printed size vector. -/
def reportCount (p : Nat → Nat) : Nat := (reportSizes p).length

/-- C9: the final output is the descending-sorted sequence of class sizes
(each positive, one per class) together with the class count, which equals
the length of the printed size sequence. -/
theorem C9_report_shape :
    List.Pairwise (fun a b : Nat => b ≤ a) (reportSizes finalState) ∧
    0 ∉ reportSizes finalState ∧
    reportCount finalState = (reportSizes finalState).length ∧
    (reportSizes finalState).length = (get_classes finalState).length := by
  refine ⟨?_, ?_, rfl, ?_⟩
  · unfold reportSizes
    rw [List.pairwise_reverse]
    refine List.Pairwise.imp ?_ (List.sorted_mergeSort ?_ ?_ _)
    · intro a b h
      exact of_decide_eq_true h
    · intro a b c h1 h2
      simp only [decide_eq_true_eq] at h1 h2 ⊢
      omega
    · intro a b
      simp only [Bool.or_eq_true, decide_eq_true_eq]
      omega
  · intro h
    unfold reportSizes at h
    rw [List.mem_reverse, List.mem_mergeSort] at h
    obtain ⟨c, hc, hlen⟩ := List.mem_map.mp h
    have hne := get_classes_nonempty finalState finalState_spec.1 c hc
    exact hne (List.eq_nil_of_length_eq_zero hlen)
  · unfold reportSizes
    rw [List.length_reverse, List.length_mergeSort, List.length_map]
